import Mathlib

/-!
Verification of the pinokio-website scraper pipeline.

The development shallowly embeds the three Python source variants:
`pinokio_scraper.py`, `pinokio_scraper_2.py` (the merged script) and
`scripts/pinokio_fetch.py`.  Strings are modelled as Lean `String`
(working over `String.data : List Char`, i.e. code-point sequences,
matching Python's string semantics for the ASCII data involved);
network calls and the SQLite store are modelled as explicit
environments and association lists; `try/except` blocks that swallow
errors are modelled with `Option`.
-/

/-! ## Character classes of the URL regular expressions

`pinokio_scraper_2.py` uses `[A-Za-z0-9_.-]` for both the JSON walk and
the README scan; `pinokio_fetch.py` uses `[\w\-_]` (word characters or
hyphen) for its README scan.  `Char.isAlpha`/`Char.isDigit` are exactly
the ASCII ranges `A-Z`,`a-z`,`0-9`. -/

def urlCls (c : Char) : Bool :=
  c.isAlpha || c.isDigit || c == '_' || c == '.' || c == '-'

def wordCls (c : Char) : Bool :=
  c.isAlpha || c.isDigit || c == '_' || c == '-'

/-- The literal prefix of the pattern `https://github\.com/[...]+/[...]+`. -/
def litGithub : List Char := "https://github.com/".data

/-- Python's substring containment `needle in hay` (used for
`"github.com" in data`). -/
def containsSub (needle : List Char) : List Char → Bool
  | [] => needle.isEmpty
  | c :: t => needle.isPrefixOf (c :: t) || containsSub needle t

/-- Attempt to match `https://github\.com/<owner>/<repo>` at the start of
`cs`, where owner/repo characters are drawn from `cls`.  Returns the
owner and repo character runs.  Greedy matching of the character class
is equivalent to regex backtracking here because `/` is not in the
class, so the owner run must be maximal. -/
def matchGithubAt (cls : Char → Bool) (cs : List Char) : Option (List Char × List Char) :=
  if cs.take litGithub.length = litGithub then
    match (cs.drop litGithub.length).takeWhile cls, (cs.drop litGithub.length).dropWhile cls with
    | [], _ => none
    | a :: as, '/' :: r2 =>
      if (r2.takeWhile cls).isEmpty then none
      else some (a :: as, r2.takeWhile cls)
    | _ :: _, _ => none
  else none

/-- The text of a match: `https://github.com/<owner>/<repo>`
(what `m.group(0)` returns). -/
def matchText (p : List Char × List Char) : List Char :=
  litGithub ++ p.1 ++ '/' :: p.2

/-- `re.search` for the GitHub-URL pattern: leftmost match wins. -/
def searchGithub (cls : Char → Bool) : List Char → Option (List Char × List Char)
  | [] => none
  | c :: t =>
    match matchGithubAt cls (c :: t) with
    | some p => some p
    | none => searchGithub cls t

/-- All matches of the GitHub-URL pattern, scanning every start
position left to right (used to state "the file contains exactly one
GitHub URL"). -/
def allMatchesIn (cls : Char → Bool) : List Char → List (List Char × List Char)
  | [] => []
  | c :: t =>
    match matchGithubAt cls (c :: t) with
    | some p => p :: allMatchesIn cls t
    | none => allMatchesIn cls t

/-! ## JSON values

`json.loads` output is modelled as a tree of objects, arrays, strings
and other scalars; for scalars only the Python truthiness is kept
(numbers, booleans, null). -/

inductive JVal where
  | obj : List (String × JVal) → JVal
  | arr : List JVal → JVal
  | str : String → JVal
  | atom : Bool → JVal

/-- Python truthiness of a decoded JSON value (`if data:`). -/
def JVal.truthy : JVal → Bool
  | .obj kvs => !kvs.isEmpty
  | .arr vs => !vs.isEmpty
  | .str s => !s.isEmpty
  | .atom b => b

mutual

/-- `_extract_github_url_from_json` of `pinokio_scraper_2.py`: walk any
JSON depth-first (dict values in order, then recursively; list items in
order) and return the first regex match found in a string scalar that
contains `"github.com"`. -/
def extractJ : JVal → Option String
  | .obj kvs => extractJO kvs
  | .arr vs => extractJA vs
  | .str s =>
    if containsSub "github.com".data s.data then
      (searchGithub urlCls s.data).map (fun p => String.mk (matchText p))
    else none
  | .atom _ => none

def extractJO : List (String × JVal) → Option String
  | [] => none
  | (_, v) :: t =>
    match extractJ v with
    | some u => some u
    | none => extractJO t

def extractJA : List JVal → Option String
  | [] => none
  | v :: t =>
    match extractJ v with
    | some u => some u
    | none => extractJA t

end

mutual

/-- `find_url` inside `find_upstream_repo` of `pinokio_fetch.py`:
returns the first string scalar that contains `"github.com"` as a
substring (the whole string, with no regex check). -/
def findUrlJ : JVal → Option String
  | .obj kvs => findUrlJO kvs
  | .arr vs => findUrlJA vs
  | .str s => if containsSub "github.com".data s.data then some s else none
  | .atom _ => none

def findUrlJO : List (String × JVal) → Option String
  | [] => none
  | (_, v) :: t =>
    match findUrlJ v with
    | some u => some u
    | none => findUrlJO t

def findUrlJA : List JVal → Option String
  | [] => none
  | v :: t =>
    match findUrlJ v with
    | some u => some u
    | none => findUrlJA t

end

mutual

/-- All GitHub-URL pattern matches contained in the string scalars of a
JSON value, in depth-first order. -/
def jsonUrls : JVal → List String
  | .obj kvs => jsonUrlsO kvs
  | .arr vs => jsonUrlsA vs
  | .str s => (allMatchesIn urlCls s.data).map (fun p => String.mk (matchText p))
  | .atom _ => []

def jsonUrlsO : List (String × JVal) → List String
  | [] => []
  | (_, v) :: t => jsonUrls v ++ jsonUrlsO t

def jsonUrlsA : List JVal → List String
  | [] => []
  | v :: t => jsonUrls v ++ jsonUrlsA t

end

/-! ## Basic facts about the pattern matcher -/

theorem searchGithub_eq_head (cls : Char → Bool) :
    ∀ s : List Char, searchGithub cls s = (allMatchesIn cls s).head? := by
  intro s
  induction s with
  | nil => rfl
  | cons c t ih =>
    simp only [searchGithub, allMatchesIn]
    cases matchGithubAt cls (c :: t) with
    | some p => rfl
    | none => simpa using ih

theorem containsSub_cons (needle : List Char) (c : Char) (t : List Char)
    (h : containsSub needle t = true) : containsSub needle (c :: t) = true := by
  simp [containsSub, h]

theorem isPrefixOf_append_self (n b : List Char) : n.isPrefixOf (n ++ b) = true := by
  induction n with
  | nil => simp [List.isPrefixOf]
  | cons c t ih => simp [List.isPrefixOf, ih]

theorem containsSub_eq_true_of_pre (n r : List Char) :
    containsSub n (n ++ r) = true := by
  cases n with
  | nil => cases r <;> simp [containsSub, List.isEmpty]
  | cons c t =>
    simp [containsSub, isPrefixOf_append_self (c :: t) r]

theorem containsSub_of_infix (n a b : List Char) :
    containsSub n (a ++ (n ++ b)) = true := by
  induction a with
  | nil => simpa using containsSub_eq_true_of_pre n b
  | cons c t ih => exact containsSub_cons n c _ ih

theorem matchGithubAt_shape (cls : Char → Bool) (cs : List Char)
    (p : List Char × List Char) (h : matchGithubAt cls cs = some p) :
    p.1 ≠ [] ∧ p.2 ≠ [] ∧ p.1.all cls = true ∧ p.2.all cls = true ∧
      cs = matchText p ++ (cs.drop (matchText p).length) := by
  unfold matchGithubAt at h
  split at h
  case isFalse => exact absurd h (by simp)
  case isTrue htake =>
    split at h
    case h_1 => exact absurd h (by simp)
    case h_3 => exact absurd h (by simp)
    case h_2 a as r2 heq hdrop =>
      split at h
      case isTrue => exact absurd h (by simp)
      case isFalse hrep =>
        have hp : p = (a :: as, (r2.takeWhile cls)) := by
          simpa using h.symm
        subst hp
        refine ⟨by simp, by simpa [List.isEmpty_iff] using hrep, ?_, ?_, ?_⟩
        · rw [List.all_eq_true]
          intro x hx
          exact List.mem_takeWhile_imp (heq ▸ hx)
        · rw [List.all_eq_true]
          intro x hx
          exact List.mem_takeWhile_imp hx
        · have hsplit : cs = litGithub ++ cs.drop litGithub.length := by
            conv_lhs => rw [← List.take_append_drop litGithub.length cs]
            rw [htake]
          have hrest : cs.drop litGithub.length
              = (a :: as) ++ '/' :: r2.takeWhile cls ++ r2.dropWhile cls := by
            conv_lhs =>
              rw [← List.takeWhile_append_dropWhile cls (cs.drop litGithub.length)]
            rw [heq, hdrop]
            have := List.takeWhile_append_dropWhile cls r2
            simp only [List.cons_append, List.append_assoc]
            rw [this]
          have hcs : cs = matchText (a :: as, r2.takeWhile cls) ++ r2.dropWhile cls := by
            rw [hsplit, hrest]
            simp [matchText]
          conv_lhs => rw [hcs]
          congr 1
          rw [hcs]
          simp

theorem searchGithub_shape (cls : Char → Bool) :
    ∀ (s : List Char) (p : List Char × List Char), searchGithub cls s = some p →
      p.1 ≠ [] ∧ p.2 ≠ [] ∧ p.1.all cls = true ∧ p.2.all cls = true := by
  intro s
  induction s with
  | nil => intro p h; exact absurd h (by simp [searchGithub])
  | cons c t ih =>
    intro p h
    rw [searchGithub] at h
    revert h
    split
    case h_1 q hq =>
      intro h
      have hpq : q = p := by simpa using h
      have h2 := matchGithubAt_shape cls (c :: t) q hq
      rw [← hpq]
      exact ⟨h2.1, h2.2.1, h2.2.2.1, h2.2.2.2.1⟩
    case h_2 => exact ih p

theorem allMatchesIn_shape (cls : Char → Bool) :
    ∀ (s : List Char) (p : List Char × List Char), p ∈ allMatchesIn cls s →
      p.1 ≠ [] ∧ p.2 ≠ [] ∧ p.1.all cls = true ∧ p.2.all cls = true := by
  intro s
  induction s with
  | nil => intro p h; exact absurd h (by simp [allMatchesIn])
  | cons c t ih =>
    intro p h
    rw [allMatchesIn] at h
    revert h
    split
    case h_1 q hq =>
      intro h
      rcases List.mem_cons.mp h with rfl | h
      · have := matchGithubAt_shape cls (c :: t) p hq
        exact ⟨this.1, this.2.1, this.2.2.1, this.2.2.2.1⟩
      · exact ih p h
    case h_2 => exact ih p

theorem matchGithubAt_contains (cls : Char → Bool) (cs : List Char)
    (p : List Char × List Char) (h : matchGithubAt cls cs = some p) :
    containsSub "github.com".data cs = true := by
  have hcs := (matchGithubAt_shape cls cs p h).2.2.2.2
  have hlit : matchText p ++ cs.drop (matchText p).length
      = "https://".data ++ ("github.com".data ++
        ('/' :: p.1 ++ '/' :: p.2 ++ cs.drop (matchText p).length)) := by
    simp [matchText, litGithub]
  rw [hcs, hlit]
  exact containsSub_of_infix _ _ _

theorem allMatchesIn_nil_of_not_contains (cls : Char → Bool) :
    ∀ s : List Char, containsSub "github.com".data s = false →
      allMatchesIn cls s = [] := by
  intro s
  induction s with
  | nil => intro _; rfl
  | cons c t ih =>
    intro h
    rw [allMatchesIn]
    have ht : containsSub "github.com".data t = false := by
      by_contra hne
      have := containsSub_cons "github.com".data c t
        (by revert hne; cases containsSub "github.com".data t <;> simp)
      rw [this] at h
      cases h
    split
    case h_1 q hq =>
      rw [matchGithubAt_contains cls (c :: t) q hq] at h
      cases h
    case h_2 => exact ih ht

/-! ## Strong induction over JSON values -/

theorem jval_ind (P : JVal → Prop)
    (h : ∀ j, (∀ v, sizeOf v < sizeOf j → P v) → P j) (j : JVal) : P j :=
  h j (fun v _ => jval_ind P h v)
termination_by sizeOf j
decreasing_by assumption

theorem sizeOf_lt_obj (kvs : List (String × JVal)) (p : String × JVal)
    (hp : p ∈ kvs) : sizeOf p.2 < sizeOf (JVal.obj kvs) := by
  have h1 := List.sizeOf_lt_of_mem hp
  obtain ⟨a, b⟩ := p
  simp at h1 ⊢
  omega

theorem sizeOf_lt_arr (vs : List JVal) (v : JVal) (hv : v ∈ vs) :
    sizeOf v < sizeOf (JVal.arr vs) := by
  have h1 := List.sizeOf_lt_of_mem hv
  simp
  omega

/-! ## The walk returns the head of the URL list -/

theorem extractJO_eq_head (kvs : List (String × JVal))
    (h : ∀ p ∈ kvs, extractJ p.2 = (jsonUrls p.2).head?) :
    extractJO kvs = (jsonUrlsO kvs).head? := by
  induction kvs with
  | nil => rfl
  | cons kv t ih =>
    obtain ⟨k, v⟩ := kv
    rw [extractJO, jsonUrlsO]
    have hv := h (k, v) (by simp)
    rw [hv]
    cases hj : jsonUrls v with
    | nil => simpa using ih (fun p hp => h p (by simp [hp]))
    | cons a b => simp

theorem extractJA_eq_head (vs : List JVal)
    (h : ∀ v ∈ vs, extractJ v = (jsonUrls v).head?) :
    extractJA vs = (jsonUrlsA vs).head? := by
  induction vs with
  | nil => rfl
  | cons v t ih =>
    rw [extractJA, jsonUrlsA]
    have hv := h v (by simp)
    rw [hv]
    cases hj : jsonUrls v with
    | nil => simpa using ih (fun p hp => h p (by simp [hp]))
    | cons a b => simp

theorem extractJ_eq_head : ∀ j : JVal, extractJ j = (jsonUrls j).head? := by
  intro j
  induction j using jval_ind with
  | h j ihj =>
    cases j with
    | obj kvs =>
      rw [extractJ, jsonUrls]
      exact extractJO_eq_head kvs (fun p hp => ihj p.2 (sizeOf_lt_obj kvs p hp))
    | arr vs =>
      rw [extractJ, jsonUrls]
      exact extractJA_eq_head vs (fun v hv => ihj v (sizeOf_lt_arr vs v hv))
    | str s =>
      rw [extractJ, jsonUrls]
      split
      case isTrue => rw [searchGithub_eq_head, List.head?_map]
      case isFalse hc =>
        rw [allMatchesIn_nil_of_not_contains urlCls s.data (by
          revert hc; cases containsSub "github.com".data s.data <;> simp)]
        rfl
    | atom b => rfl

/-! ## Python string operations used to split owner/repo out of a URL -/

/-- Python `str.rstrip("/")`. -/
def rstripSlash (l : List Char) : List Char :=
  (l.reverse.dropWhile (fun c => c = '/')).reverse

/-- Python `str.lstrip("/")`. -/
def lstripSlash (l : List Char) : List Char :=
  l.dropWhile (fun c => c = '/')

/-- Python `str.strip("/")`. -/
def stripSlash (l : List Char) : List Char :=
  rstripSlash (lstripSlash l)

/-- Python `str.split(sep)` for a single-character separator,
keeping empty segments. -/
def splitOnChar (sep : Char) : List Char → List (List Char)
  | [] => [[]]
  | c :: t =>
    if c = sep then [] :: splitOnChar sep t
    else
      match splitOnChar sep t with
      | h :: r => (c :: h) :: r
      | [] => [[c]]

/-- Python `str.split(sep)` for a multi-character separator (fuelled;
the fuel is the length of the input, which suffices because every step
consumes at least one character when `sep` is nonempty). -/
def splitOnSubFuel (sep : List Char) : Nat → List Char → List (List Char)
  | _, [] => [[]]
  | 0, l => [l]
  | fuel + 1, c :: t =>
    if sep.isPrefixOf (c :: t) then
      [] :: splitOnSubFuel sep fuel ((c :: t).drop sep.length)
    else
      match splitOnSubFuel sep fuel t with
      | h :: r => (c :: h) :: r
      | [] => [[c]]

def splitOnSub (sep l : List Char) : List (List Char) :=
  splitOnSubFuel sep l.length l

/-- Python `str.replace(pat, rep)` (all occurrences, left to right,
non-overlapping; fuelled like `splitOnSubFuel`). -/
def replaceAllFuel (pat rep : List Char) : Nat → List Char → List Char
  | _, [] => []
  | 0, l => l
  | fuel + 1, c :: t =>
    if pat.isPrefixOf (c :: t) then
      rep ++ replaceAllFuel pat rep fuel ((c :: t).drop pat.length)
    else
      c :: replaceAllFuel pat rep fuel t

def replaceAll (pat rep l : List Char) : List Char :=
  replaceAllFuel pat rep l.length l

/-- Python `lst[-2:]` followed by 2-tuple unpacking: the last two
elements, or `none` (a `ValueError`) when fewer than 2 exist. -/
def lastTwo : List (List Char) → Option (List Char × List Char)
  | l =>
    match l.reverse with
    | b :: a :: _ => some (a, b)
    | _ => none

/-- `owner, rname = u.rstrip("/").split("/")[-2:]` from `find_upstream`
in `pinokio_scraper_2.py` (the `ValueError` of a failed unpacking is
swallowed by the surrounding `try`, hence `Option`). -/
def splitOwnerRepo (u : String) : Option (String × String) :=
  (lastTwo (splitOnChar '/' (rstripSlash u.data))).map
    (fun q => (String.mk q.1, String.mk q.2))

/-- `_extract_github_url_from_readme` of `pinokio_scraper_2.py`. -/
def extractGithubUrlFromReadme (text : String) : Option String :=
  (searchGithub urlCls text.data).map (fun p => String.mk (matchText p))

/-- The owner/repo pair that `find_upstream` of `pinokio_scraper_2.py`
passes to `get_repo_info` after its README scan. -/
def readmePairScraper2 (text : String) : Option (String × String) :=
  match extractGithubUrlFromReadme text with
  | none => none
  | some u => splitOwnerRepo u

/-- The owner/repo pair that the README branch of `find_upstream_repo`
in `pinokio_fetch.py` passes to `get_repo_info`:
`parts = match.group(0).split("github.com/")[-1].strip("/").split("/")`
then `(parts[0], parts[1].replace(".git", ""))`.  A missing `parts[1]`
would be an uncaught `IndexError`; it is modelled as `none` (it cannot
occur when the regex matched). -/
def readmePairFetch (text : String) : Option (String × String) :=
  match searchGithub wordCls text.data with
  | none => none
  | some p =>
    match (splitOnSub "github.com/".data (matchText p)).getLastD [] with
    | tail =>
      match splitOnChar '/' (stripSlash tail) with
      | a :: b :: _ => some (String.mk a, String.mk (replaceAll ".git".data [] b))
      | _ => none

/-! ## The upstream resolver of `pinokio_scraper_2.py` -/

/-- Result of `get_repo_info` (a subset of the GitHub repository
metadata). -/
structure RepoInfo where
  full_name : String
  description : String
  created_at : String
  updated_at : String
  pushed_at : Option String
  open_issues : Nat
  html_url : String
deriving DecidableEq, Repr

/-- The external world seen by `find_upstream(org, repo)`: the decoded
JSON content of a file fetched via the contents API
(`_decode_content_json`, `none` on any fetch/parse failure), the README
text (`_fetch_readme_text`), and `get_repo_info` for an owner/repo pair
(`none` models a raised exception, e.g. a 404). -/
structure FetchEnv where
  contentJson : String → Option JVal
  readme : Option String
  repoInfo : String → String → Option RepoInfo

/-- One iteration of the recipe-file loop of `find_upstream`:
fetch and decode `fname`, check truthiness, walk the JSON for a URL,
split owner/repo, resolve.  Any failure yields `none` (the loop then
falls through to the next candidate source). -/
def recipeStep (env : FetchEnv) (fname : String) : Option RepoInfo :=
  match env.contentJson fname with
  | none => none
  | some data =>
    if data.truthy then
      match extractJ data with
      | none => none
      | some u =>
        match splitOwnerRepo u with
        | none => none
        | some q => env.repoInfo q.1 q.2
    else none

/-- `find_upstream` of `pinokio_scraper_2.py`: try `pinokio.json`, then
`install.json`, then the README. -/
def find_upstream (env : FetchEnv) : Option RepoInfo :=
  match recipeStep env "pinokio.json" with
  | some i => some i
  | none =>
    match recipeStep env "install.json" with
    | some i => some i
    | none =>
      match env.readme with
      | none => none
      | some text =>
        match extractGithubUrlFromReadme text with
        | none => none
        | some u =>
          match splitOwnerRepo u with
          | none => none
          | some q => env.repoInfo q.1 q.2

/-! ## Rate-limited fetcher (`_github_get` of `pinokio_scraper_2.py`)

A run of the retry loop is driven by a finite trace of responses, each
paired with the value of `time.time()` at that attempt.  The second
component of the result is the number of requests issued (the amount
added to the process-wide `_api_calls_used` counter), the third is the
list of sleep durations performed. -/

structure HttpResp where
  status : Nat
  rlRemaining : Option String
  rlReset : Option Int
deriving DecidableEq, Repr

/-- `r.status_code == 403 and "X-RateLimit-Remaining" in r.headers`
and the header value equals `"0"`. -/
def isRateLimited (r : HttpResp) : Bool :=
  r.status == 403 && r.rlRemaining.isSome && r.rlRemaining == some "0"

/-- `wait = max(reset - int(time.time()), 1)` with
`reset = int(r.headers.get("X-RateLimit-Reset", time.time() + 60))`. -/
def rlWait (r : HttpResp) (now : Int) : Int :=
  max ((r.rlReset.getD (now + 60)) - now) 1

inductive GetOutcome where
  /-- the response is returned to the caller -/
  | ok (r : HttpResp)
  /-- `raise_for_status()` raised an `HTTPError` -/
  | httpError (status : Nat)
  /-- the trace was exhausted while the loop was still retrying -/
  | pending
deriving DecidableEq, Repr

/-- The retry loop of `_github_get`, run over a finite trace of
responses.  Every attempt counts one API call; a rate-limited 403
sleeps and retries; otherwise `raise_for_status()` raises exactly for
statuses in 400..599 and any other response is returned. -/
def githubGetRun : List (HttpResp × Int) → GetOutcome × Nat × List Int
  | [] => (.pending, 0, [])
  | (r, now) :: rest =>
    if isRateLimited r then
      match githubGetRun rest with
      | (o, n, sleeps) => (o, n + 1, rlWait r now :: sleeps)
    else if 400 ≤ r.status ∧ r.status < 600 then (.httpError r.status, 1, [])
    else (.ok r, 1, [])

/-! ## Cache store and refresh orchestrator (`main` of
`pinokio_scraper_2.py`)

The `repos` table is an association list keyed by the unique `name`
column (`INSERT OR REPLACE` with the identity-preserving subselect
keeps the row position; new names are appended). -/

/-- One row of the `repos` table (the `id` surrogate key is also
preserved by the upsert and is omitted). -/
structure RepoRow where
  name : String
  description : String
  html_url : String
  created_at : String
  updated_at : String
  pushed_at : Option String
  open_issues : Nat
  upstream_name : Option String
  upstream_url : Option String
  upstream_created_at : Option String
  upstream_updated_at : Option String
  upstream_open_issues : Option Nat
  last_checked : String
deriving DecidableEq, Repr

/-- One element of the organization listing returned by
`list_org_repos`. -/
structure ListingRepo where
  name : String
  description : Option String
  html_url : String
  created_at : String
  updated_at : String
  pushed_at : Option String
  open_issues_count : Nat
deriving DecidableEq, Repr

abbrev Store := List (String × RepoRow)

/-- `SELECT ... FROM repos WHERE name=?`. -/
def lookupRow : Store → String → Option RepoRow
  | [], _ => none
  | (k, r) :: t, n => if k = n then some r else lookupRow t n

/-- `INSERT OR REPLACE` keyed by `name` (position and identity
preserved for an existing row, appended otherwise). -/
def upsert : Store → RepoRow → Store
  | [], row => [(row.name, row)]
  | (k, r) :: t, row =>
    if k = row.name then (k, row) :: t else (k, r) :: upsert t row

/-- The cache policy of `main`:
`should_refresh = FORCE_REFRESH or (row is None) or (row and row[0] != updated_at)`
where `row` is the stored `updated_at` (a 1-tuple is always truthy). -/
def should_refresh (force : Bool) (row : Option String) (updatedAt : String) : Bool :=
  force || row.isNone ||
    (match row with
     | none => false
     | some u => u != updatedAt)

/-- The merged record upserted on refresh: own metadata from the live
listing (`description` passed through `or ""`), the five upstream
fields from the resolver result if it succeeded, all `NULL` otherwise,
plus a fresh `last_checked` timestamp. -/
def mergedRow (rp : ListingRepo) (upstream : Option RepoInfo) (nowIso : String) : RepoRow :=
  { name := rp.name
    description := rp.description.getD ""
    html_url := rp.html_url
    created_at := rp.created_at
    updated_at := rp.updated_at
    pushed_at := rp.pushed_at
    open_issues := rp.open_issues_count
    upstream_name := upstream.map (fun i => i.full_name)
    upstream_url := upstream.map (fun i => i.html_url)
    upstream_created_at := upstream.map (fun i => i.created_at)
    upstream_updated_at := upstream.map (fun i => i.updated_at)
    upstream_open_issues := upstream.map (fun i => i.open_issues)
    last_checked := nowIso }

/-- One loop iteration of `main` over a listing entry: consult the
cache policy; on staleness resolve upstream and upsert, otherwise leave
the store untouched. -/
def processRepo (force : Bool) (resolve : String → Option RepoInfo) (nowIso : String)
    (st : Store) (rp : ListingRepo) : Store :=
  if should_refresh force ((lookupRow st rp.name).map RepoRow.updated_at) rp.updated_at
  then upsert st (mergedRow rp (resolve rp.name) nowIso)
  else st

/-- One row of `rows_out` (the re-selected freshest state with `or ""`
defaults on the upstream text columns; `upstream_open_issues` stays an
integer or becomes the empty string, modelled as `Option Nat`). -/
structure ExportRow where
  name : String
  description : String
  html_url : String
  created_at : String
  updated_at : String
  pushed_at : Option String
  open_issues : Nat
  upstream_name : String
  upstream_url : String
  upstream_created_at : String
  upstream_updated_at : String
  upstream_open_issues : Option Nat
deriving DecidableEq, Repr

def exportRowOf (r : RepoRow) : ExportRow :=
  { name := r.name
    description := r.description
    html_url := r.html_url
    created_at := r.created_at
    updated_at := r.updated_at
    pushed_at := r.pushed_at
    open_issues := r.open_issues
    upstream_name := r.upstream_name.getD ""
    upstream_url := r.upstream_url.getD ""
    upstream_created_at := r.upstream_created_at.getD ""
    upstream_updated_at := r.upstream_updated_at.getD ""
    upstream_open_issues := r.upstream_open_issues }

/-- The per-repo loop of `main`: process each listing entry in order,
emitting one `rows_out` entry per entry from the freshest stored state.
Returns the final store and `rows_out` (before sorting). -/
def runMain (force : Bool) (resolve : String → Option RepoInfo) (nowIso : String)
    (st : Store) : List ListingRepo → Store × List ExportRow
  | [] => (st, [])
  | rp :: rest =>
    match runMain force resolve nowIso (processRepo force resolve nowIso st rp) rest with
    | (st2, rows) =>
      (st2,
        (((lookupRow (processRepo force resolve nowIso st rp) rp.name).map
          exportRowOf).toList) ++ rows)

/-! ## Export sorting (`rows_out.sort(key=lambda r: (r["upstream_name"], r["name"]))`) -/

/-- Python string `<` : lexicographic comparison by code point. -/
def strLtB : List Char → List Char → Bool
  | [], [] => false
  | [], _ :: _ => true
  | _ :: _, [] => false
  | a :: as, b :: bs =>
    if a < b then true
    else if b < a then false
    else strLtB as bs

/-- Python tuple-key `<=` used by the stable sort: lexicographic on
`(upstream_name, name)`. -/
def expLE (a b : ExportRow) : Bool :=
  strLtB a.upstream_name.data b.upstream_name.data ||
  (a.upstream_name.data == b.upstream_name.data &&
    (strLtB a.name.data b.name.data || a.name.data == b.name.data))

def expRel (a b : ExportRow) : Prop := expLE a b = true

instance : DecidableRel expRel :=
  fun a b => inferInstanceAs (Decidable (expLE a b = true))

/-- `rows_out.sort(...)`: a stable sort by the tuple key.  Insertion
sort is stable and agrees with Python's stable sort for this total
preorder. -/
def sortRows (rows : List ExportRow) : List ExportRow :=
  List.insertionSort expRel rows

/-! ## Exporters of `pinokio_scraper_2.py`

File-system effects are modelled by the content written: `none` means
the exporter returned before creating or writing any file. -/

/-- The field order of `rows_out` dictionaries
(`fieldnames=list(rows[0].keys())`). -/
def csvHeader : List String :=
  ["name", "description", "html_url", "created_at", "updated_at", "pushed_at",
   "open_issues", "upstream_name", "upstream_url", "upstream_created_at",
   "upstream_updated_at", "upstream_open_issues"]

/-- One CSV/XLSX data line (None renders as the empty cell). -/
def csvLine (r : ExportRow) : List String :=
  [r.name, r.description, r.html_url, r.created_at, r.updated_at,
   r.pushed_at.getD "", toString r.open_issues, r.upstream_name, r.upstream_url,
   r.upstream_created_at, r.upstream_updated_at,
   (match r.upstream_open_issues with
    | some n => toString n
    | none => "")]

/-- `export_csv`: `if not rows: return` — no file at all for an empty
row set; otherwise a header line followed by the data lines. -/
def export_csv (rows : List ExportRow) : Option (List (List String)) :=
  if rows.isEmpty then none
  else some (csvHeader :: rows.map csvLine)

/-- `export_xlsx`: same guard and cell grid (styling and hyperlinks are
presentation only). -/
def export_xlsx (rows : List ExportRow) : Option (List (List String)) :=
  if rows.isEmpty then none
  else some (csvHeader :: rows.map csvLine)

/-- `export_json` of `pinokio_scraper_2.py`: always creates the output
directory and writes the JSON array of the rows (`some` content even
for an empty row set). -/
def export_json (rows : List ExportRow) : Option (List ExportRow) :=
  some rows

/-- `export_json` of `pinokio_scraper.py`: `SELECT * FROM repos` — the
full table, one dictionary per stored row. -/
def exportJsonAll (st : Store) : List RepoRow :=
  st.map (fun p => p.2)

/-! ## `pinokio_fetch.py` result rows and `pinokio_scraper.py` upstream fields -/

/-- Result of `get_repo_info` in `pinokio_fetch.py`. -/
structure UpInfo where
  name : String
  url : String
  created_at : String
  updated_at : String
  open_issues : Nat
deriving DecidableEq, Repr

/-- One element of `results` in `pinokio_fetch.py`: script fields from
`get_repo_info`, the five upstream fields from `find_upstream_repo` if
it returned a value, all empty otherwise. -/
structure FetchRow where
  script_name : String
  script_url : String
  script_created : String
  script_updated : String
  script_open_issues : Nat
  upstream_name : String
  upstream_url : String
  upstream_created : String
  upstream_updated : String
  upstream_open_issues : Option Nat
deriving DecidableEq, Repr

def fetchResultRow (script : UpInfo) (upstream : Option UpInfo) : FetchRow :=
  { script_name := script.name
    script_url := script.url
    script_created := script.created_at
    script_updated := script.updated_at
    script_open_issues := script.open_issues
    upstream_name := (upstream.map (fun i => i.name)).getD ""
    upstream_url := (upstream.map (fun i => i.url)).getD ""
    upstream_created := (upstream.map (fun i => i.created_at)).getD ""
    upstream_updated := (upstream.map (fun i => i.updated_at)).getD ""
    upstream_open_issues := upstream.map (fun i => i.open_issues) }

/-- Upstream metadata as fetched by `fetch_upstream_data` in
`pinokio_scraper.py`. -/
structure Up1 where
  created_at : String
  updated_at : String
  open_issues : Nat
deriving DecidableEq, Repr

/-- The four upstream columns `(upstream_url, upstream_created_at,
upstream_updated_at, upstream_open_issues)` as computed by `main` of
`pinokio_scraper.py`: `upstream_url` is set as soon as the README scan
finds a URL, the remaining three only if the metadata fetch also
succeeds. -/
def scraper1UpstreamFields (findUrl : Option String) (fetchData : String → Option Up1) :
    Option String × Option String × Option String × Option Nat :=
  match findUrl with
  | none => (none, none, none, none)
  | some url =>
    match fetchData url with
    | none => (some url, none, none, none)
    | some d => (some url, some d.created_at, some d.updated_at, some d.open_issues)

/-! ## Order facts for the sort key -/

theorem strLtB_irrefl : ∀ l : List Char, strLtB l l = false := by
  intro l
  induction l with
  | nil => rfl
  | cons a t ih => simp [strLtB, lt_irrefl, ih]

theorem strLtB_nil_right : ∀ l : List Char, strLtB l [] = false := by
  intro l
  cases l <;> rfl

theorem strLtB_total : ∀ a b : List Char,
    strLtB a b = true ∨ strLtB b a = true ∨ a = b := by
  intro a
  induction a with
  | nil =>
    intro b
    cases b with
    | nil => exact Or.inr (Or.inr rfl)
    | cons x xs => exact Or.inl rfl
  | cons y ys ih =>
    intro b
    cases b with
    | nil => exact Or.inr (Or.inl rfl)
    | cons x xs =>
      rcases lt_trichotomy y x with h | h | h
      · exact Or.inl (by simp [strLtB, h])
      · subst h
        rcases ih xs with h2 | h2 | h2
        · exact Or.inl (by simp [strLtB, lt_irrefl, h2])
        · exact Or.inr (Or.inl (by simp [strLtB, lt_irrefl, h2]))
        · exact Or.inr (Or.inr (by rw [h2]))
      · exact Or.inr (Or.inl (by simp [strLtB, h]))

theorem strLtB_trans : ∀ a b c : List Char,
    strLtB a b = true → strLtB b c = true → strLtB a c = true := by
  intro a
  induction a with
  | nil =>
    intro b c h1 h2
    cases b with
    | nil => cases h1
    | cons x xs =>
      cases c with
      | nil => rw [strLtB_nil_right] at h2; cases h2
      | cons z zs => rfl
  | cons y ys ih =>
    intro b c h1 h2
    cases b with
    | nil => rw [strLtB_nil_right] at h1; cases h1
    | cons x xs =>
      cases c with
      | nil => rw [strLtB_nil_right] at h2; cases h2
      | cons z zs =>
        by_cases hyx : y < x
        · by_cases hxz : x < z
          · simp [strLtB, lt_trans hyx hxz]
          · by_cases hzx : z < x
            · simp [strLtB, hxz, hzx] at h2
            · have hxz2 : x = z := le_antisymm (not_lt.mp hzx) (not_lt.mp hxz)
              subst hxz2
              simp [strLtB, hyx]
        · by_cases hxy : x < y
          · simp [strLtB, hyx, hxy] at h1
          · have hyx2 : y = x := le_antisymm (not_lt.mp hxy) (not_lt.mp hyx)
            subst hyx2
            simp only [strLtB, lt_irrefl, if_false] at h1
            by_cases hyz : y < z
            · simp [strLtB, hyz]
            · by_cases hzy : z < y
              · simp [strLtB, hyz, hzy] at h2
              · have hyz2 : y = z := le_antisymm (not_lt.mp hzy) (not_lt.mp hyz)
                subst hyz2
                simp only [strLtB, lt_irrefl, if_false] at h2 ⊢
                exact ih xs zs h1 h2

theorem expLE_iff (a b : ExportRow) : expLE a b = true ↔
    strLtB a.upstream_name.data b.upstream_name.data = true ∨
      (a.upstream_name.data = b.upstream_name.data ∧
        (strLtB a.name.data b.name.data = true ∨ a.name.data = b.name.data)) := by
  simp [expLE, Bool.or_eq_true, Bool.and_eq_true]

theorem expLE_total : ∀ a b : ExportRow, expLE a b = true ∨ expLE b a = true := by
  intro a b
  rcases strLtB_total a.upstream_name.data b.upstream_name.data with h | h | h
  · exact Or.inl ((expLE_iff a b).mpr (Or.inl h))
  · exact Or.inr ((expLE_iff b a).mpr (Or.inl h))
  · rcases strLtB_total a.name.data b.name.data with h2 | h2 | h2
    · exact Or.inl ((expLE_iff a b).mpr (Or.inr ⟨h, Or.inl h2⟩))
    · exact Or.inr ((expLE_iff b a).mpr (Or.inr ⟨h.symm, Or.inl h2⟩))
    · exact Or.inl ((expLE_iff a b).mpr (Or.inr ⟨h, Or.inr h2⟩))

theorem expLE_trans : ∀ a b c : ExportRow,
    expLE a b = true → expLE b c = true → expLE a c = true := by
  intro a b c h1 h2
  rw [expLE_iff] at h1 h2 ⊢
  rcases h1 with h1 | ⟨h1e, h1n⟩
  · rcases h2 with h2 | ⟨h2e, _⟩
    · exact Or.inl (strLtB_trans _ _ _ h1 h2)
    · exact Or.inl (h2e ▸ h1)
  · rcases h2 with h2 | ⟨h2e, h2n⟩
    · exact Or.inl (h1e ▸ h2)
    · refine Or.inr ⟨h1e.trans h2e, ?_⟩
      rcases h1n with h1n | h1n
      · rcases h2n with h2n | h2n
        · exact Or.inl (strLtB_trans _ _ _ h1n h2n)
        · exact Or.inl (h2n ▸ h1n)
      · rcases h2n with h2n | h2n
        · exact Or.inl (h1n ▸ h2n)
        · exact Or.inr (h1n.trans h2n)

instance : IsTotal ExportRow expRel := ⟨expLE_total⟩

instance : IsTrans ExportRow expRel := ⟨expLE_trans⟩

/-! ## Store lemmas -/

theorem lookup_upsert_self : ∀ (st : Store) (row : RepoRow),
    lookupRow (upsert st row) row.name = some row := by
  intro st row
  induction st with
  | nil => simp [upsert, lookupRow]
  | cons p t ih =>
    obtain ⟨k, r⟩ := p
    by_cases hk : k = row.name
    · simp [upsert, hk, lookupRow]
    · simp [upsert, hk, lookupRow, ih]

theorem lookup_upsert_ne : ∀ (st : Store) (row : RepoRow) (n : String), n ≠ row.name →
    lookupRow (upsert st row) n = lookupRow st n := by
  intro st row n h
  induction st with
  | nil => simp [upsert, lookupRow, Ne.symm h]
  | cons p t ih =>
    obtain ⟨k, r⟩ := p
    by_cases hk : k = row.name
    · subst hk
      simp [upsert, lookupRow, Ne.symm h]
    · by_cases hkn : k = n
      · subst hkn
        simp [upsert, hk, lookupRow]
      · simp [upsert, hk, lookupRow, hkn, ih]

theorem processRepo_ne (force : Bool) (resolve : String → Option RepoInfo)
    (nowIso : String) (st : Store) (rp : ListingRepo) (n : String) (h : n ≠ rp.name) :
    lookupRow (processRepo force resolve nowIso st rp) n = lookupRow st n := by
  unfold processRepo
  split
  · exact lookup_upsert_ne st (mergedRow rp (resolve rp.name) nowIso) n h
  · rfl

theorem runMain_store_not_mem (force : Bool) (resolve : String → Option RepoInfo)
    (nowIso : String) : ∀ (repos : List ListingRepo) (st : Store) (n : String),
    n ∉ repos.map ListingRepo.name →
    lookupRow (runMain force resolve nowIso st repos).1 n = lookupRow st n := by
  intro repos
  induction repos with
  | nil => intro st n _; rfl
  | cons rp rest ih =>
    intro st n h
    rw [List.map_cons, List.mem_cons] at h
    push_neg at h
    show lookupRow (runMain force resolve nowIso st (rp :: rest)).1 n = lookupRow st n
    rw [runMain]
    simp only
    rw [ih (processRepo force resolve nowIso st rp) n h.2]
    exact processRepo_ne force resolve nowIso st rp n h.1

theorem should_refresh_false_of_match (s : String) :
    should_refresh false (some s) s = false := by
  simp [should_refresh]

theorem runMain_fresh (resolve : String → Option RepoInfo) (nowIso : String) :
    ∀ (repos : List ListingRepo) (st : Store),
    (∀ rp ∈ repos, (lookupRow st rp.name).map RepoRow.updated_at = some rp.updated_at) →
    (runMain false resolve nowIso st repos).1 = st := by
  intro repos
  induction repos with
  | nil => intro st _; rfl
  | cons rp rest ih =>
    intro st h
    have hst : processRepo false resolve nowIso st rp = st := by
      unfold processRepo
      rw [h rp (by simp), should_refresh_false_of_match]
      simp
    rw [runMain]
    simp only [hst]
    exact ih st (fun rq hrq => h rq (by simp [hrq]))

theorem runMain_establishes (resolve : String → Option RepoInfo) (nowIso : String) :
    ∀ (repos : List ListingRepo) (st : Store),
    (repos.map ListingRepo.name).Nodup →
    ∀ rp ∈ repos,
      (lookupRow (runMain false resolve nowIso st repos).1 rp.name).map RepoRow.updated_at
        = some rp.updated_at := by
  intro repos
  induction repos with
  | nil => intro st _ rp hrp; cases hrp
  | cons rq rest ih =>
    intro st hnd rp hrp
    rw [List.map_cons, List.nodup_cons] at hnd
    rw [runMain]
    simp only
    rcases List.mem_cons.mp hrp with rfl | hmem
    · rw [runMain_store_not_mem false resolve nowIso rest
        (processRepo false resolve nowIso st rp) rp.name hnd.1]
      unfold processRepo
      cases hs : should_refresh false ((lookupRow st rp.name).map RepoRow.updated_at)
        rp.updated_at with
      | true =>
        simp only [if_pos rfl, if_true]
        have hself := lookup_upsert_self st (mergedRow rp (resolve rp.name) nowIso)
        have hname : (mergedRow rp (resolve rp.name) nowIso).name = rp.name := rfl
        rw [hname] at hself
        rw [hself]
        rfl
      | false =>
        simp only [if_neg, Bool.false_eq_true, if_false]
        cases hrow : lookupRow st rp.name with
        | none =>
          rw [hrow] at hs
          simp [should_refresh] at hs
        | some r =>
          rw [hrow] at hs
          simp only [should_refresh, Bool.false_or, Option.map_some, Option.isNone_some,
            Bool.or_eq_false_iff] at hs
          have : r.updated_at = rp.updated_at := by
            have := hs.2
            simpa using this
          simp [this]
    · exact ih (processRepo false resolve nowIso st rq) hnd.2 rp hmem

theorem processRepo_keeps (force : Bool) (resolve : String → Option RepoInfo)
    (nowIso : String) (st : Store) (rp : ListingRepo) (n : String)
    (h : (lookupRow st n).isSome = true) :
    (lookupRow (processRepo force resolve nowIso st rp) n).isSome = true := by
  by_cases hn : n = rp.name
  · subst hn
    unfold processRepo
    split
    · have hself := lookup_upsert_self st (mergedRow rp (resolve rp.name) nowIso)
      rw [show (mergedRow rp (resolve rp.name) nowIso).name = rp.name from rfl] at hself
      rw [hself]
      rfl
    · exact h
  · rw [processRepo_ne force resolve nowIso st rp n hn]
    exact h

theorem runMain_keeps (force : Bool) (resolve : String → Option RepoInfo)
    (nowIso : String) : ∀ (repos : List ListingRepo) (st : Store) (n : String),
    (lookupRow st n).isSome = true →
    (lookupRow (runMain force resolve nowIso st repos).1 n).isSome = true := by
  intro repos
  induction repos with
  | nil => intro st n h; exact h
  | cons rp rest ih =>
    intro st n h
    rw [runMain]
    simp only
    exact ih (processRepo force resolve nowIso st rp) n
      (processRepo_keeps force resolve nowIso st rp n h)

theorem mem_exportJsonAll : ∀ (st : Store) (n : String) (r : RepoRow),
    lookupRow st n = some r → r ∈ exportJsonAll st := by
  intro st
  induction st with
  | nil => intro n r h; cases h
  | cons p t ih =>
    obtain ⟨k, q⟩ := p
    intro n r h
    rw [lookupRow] at h
    by_cases hk : k = n
    · rw [if_pos hk] at h
      obtain rfl : q = r := by simpa using h
      simp [exportJsonAll]
    · rw [if_neg hk] at h
      simp only [exportJsonAll, List.map_cons, List.mem_cons]
      exact Or.inr (ih n r h)

theorem string_eq_of_data_eq (s t : String) (h : s.data = t.data) : s = t := by
  cases s
  cases t
  exact congrArg String.mk h

/-- A string of the exact shape `https://github.com/<owner>/<repo>` with
owner and repo nonempty runs over the character class of the pattern. -/
def isGithubUrlText (u : String) : Prop :=
  ∃ p : List Char × List Char, u = String.mk (matchText p) ∧
    p.1 ≠ [] ∧ p.2 ≠ [] ∧ p.1.all urlCls = true ∧ p.2.all urlCls = true

theorem jsonUrlsO_shape (kvs : List (String × JVal))
    (h : ∀ q ∈ kvs, ∀ u ∈ jsonUrls q.2, isGithubUrlText u) :
    ∀ u ∈ jsonUrlsO kvs, isGithubUrlText u := by
  induction kvs with
  | nil => intro u hu; cases hu
  | cons kv t ih =>
    obtain ⟨k, v⟩ := kv
    intro u hu
    rw [jsonUrlsO] at hu
    rcases List.mem_append.mp hu with hu | hu
    · exact h (k, v) (by simp) u hu
    · exact ih (fun q hq => h q (by simp [hq])) u hu

theorem jsonUrlsA_shape (vs : List JVal)
    (h : ∀ v ∈ vs, ∀ u ∈ jsonUrls v, isGithubUrlText u) :
    ∀ u ∈ jsonUrlsA vs, isGithubUrlText u := by
  induction vs with
  | nil => intro u hu; cases hu
  | cons v t ih =>
    intro u hu
    rw [jsonUrlsA] at hu
    rcases List.mem_append.mp hu with hu | hu
    · exact h v (by simp) u hu
    · exact ih (fun q hq => h q (by simp [hq])) u hu

theorem jsonUrls_shape : ∀ (j : JVal) (u : String), u ∈ jsonUrls j → isGithubUrlText u := by
  intro j
  induction j using jval_ind with
  | h j ihj =>
    cases j with
    | obj kvs =>
      intro u hu
      rw [jsonUrls] at hu
      exact jsonUrlsO_shape kvs (fun q hq => ihj q.2 (sizeOf_lt_obj kvs q hq)) u hu
    | arr vs =>
      intro u hu
      rw [jsonUrls] at hu
      exact jsonUrlsA_shape vs (fun v hv => ihj v (sizeOf_lt_arr vs v hv)) u hu
    | str s =>
      intro u hu
      rw [jsonUrls] at hu
      obtain ⟨p, hp, rfl⟩ := List.mem_map.mp hu
      have hs := allMatchesIn_shape urlCls s.data p hp
      exact ⟨p, rfl, hs.1, hs.2.1, hs.2.2.1, hs.2.2.2⟩
    | atom b => intro u hu; cases hu

/-! ## Splitting lemmas for the owner/repo extraction -/

theorem splitOnChar_no_sep (sep : Char) :
    ∀ l : List Char, (∀ c ∈ l, ¬ c = sep) → splitOnChar sep l = [l] := by
  intro l
  induction l with
  | nil => intro _; rfl
  | cons c t ih =>
    intro h
    rw [splitOnChar, if_neg (h c (by simp)), ih (fun d hd => h d (by simp [hd]))]

theorem splitOnChar_append (sep : Char) :
    ∀ l r : List Char, (∀ c ∈ l, ¬ c = sep) →
      splitOnChar sep (l ++ sep :: r) = l :: splitOnChar sep r := by
  intro l
  induction l with
  | nil =>
    intro r _
    simp [splitOnChar]
  | cons c t ih =>
    intro r h
    rw [List.cons_append, splitOnChar, if_neg (h c (by simp)),
      ih r (fun d hd => h d (by simp [hd]))]

theorem rstripSlash_eq_self (l : List Char) (c : Char) (t : List Char)
    (hrev : l.reverse = c :: t) (hc : ¬ c = '/') : rstripSlash l = l := by
  unfold rstripSlash
  rw [hrev, List.dropWhile_cons]
  simp only [decide_eq_true_eq, hc, if_false]
  rw [← hrev, List.reverse_reverse]

/-! ## Concrete data used by witnesses and counterexamples -/

def wRowA : RepoRow :=
  { name := "a", description := "", html_url := "https://github.com/pinokiofactory/a",
    created_at := "2024-01-01", updated_at := "t1", pushed_at := none, open_issues := 0,
    upstream_name := none, upstream_url := none, upstream_created_at := none,
    upstream_updated_at := none, upstream_open_issues := none, last_checked := "lc" }

def wListA : ListingRepo :=
  { name := "a", description := none, html_url := "https://github.com/pinokiofactory/a",
    created_at := "2024-01-01", updated_at := "t1", pushed_at := none, open_issues_count := 0 }

def wListB : ListingRepo :=
  { name := "b", description := some "d", html_url := "https://github.com/pinokiofactory/b",
    created_at := "2024-02-02", updated_at := "t9", pushed_at := some "t9",
    open_issues_count := 3 }

/-- C1: For every repository name and observed `updated_at` value, the
staleness check returns true if and only if the force-refresh flag is
set, or no cached record exists for that name, or the stored
`updated_at` differs from the observed one; and when it returns false
the orchestrator leaves the stored record (indeed the whole store)
untouched. -/
theorem claim_c1 :
    (∀ (force : Bool) (row : Option String) (u : String),
      should_refresh force row u = true ↔
        (force = true ∨ row = none ∨ ∃ s, row = some s ∧ s ≠ u))
    ∧ (∀ (force : Bool) (resolve : String → Option RepoInfo) (nowIso : String)
        (st : Store) (rp : ListingRepo),
        should_refresh force ((lookupRow st rp.name).map RepoRow.updated_at) rp.updated_at
          = false →
        processRepo force resolve nowIso st rp = st) := by
  constructor
  · intro force row u
    cases row with
    | none => simp [should_refresh]
    | some s => cases force <;> simp [should_refresh, bne_iff_ne]
  · intro force resolve nowIso st rp h
    simp [processRepo, h]

/-- Witness for C1 at a concrete cached repository whose `updated_at`
is unchanged: the staleness check is false and the store is unchanged. -/
theorem claim_c1_witness :
    processRepo false (fun _ => none) "now" [("a", wRowA)] wListA = [("a", wRowA)] :=
  claim_c1.2 false (fun _ => none) "now" [("a", wRowA)] wListA (by decide)

/-- C7: If every listed repository has a cached record with an
unchanged `updated_at` (which is exactly the state after a first run
over the same listing), a second run with force-refresh off leaves
every stored record byte-identical; stated as two consecutive runs over
the same listing with distinct names: the second run is the identity on
the store, regardless of what the resolver would return. -/
theorem claim_c7 (resolve resolve2 : String → Option RepoInfo) (now now2 : String)
    (st : Store) (repos : List ListingRepo)
    (hnd : (repos.map ListingRepo.name).Nodup) :
    (runMain false resolve2 now2 (runMain false resolve now st repos).1 repos).1
      = (runMain false resolve now st repos).1 :=
  runMain_fresh resolve2 now2 repos _
    (fun rp hrp => runMain_establishes resolve now repos st hnd rp hrp)

/-- Witness for C7: one repository, two runs, second run changes
nothing. -/
theorem claim_c7_witness :
    (runMain false (fun _ => none) "n2"
        ((runMain false (fun _ => none) "n1" [] [wListA]).1) [wListA]).1
      = (runMain false (fun _ => none) "n1" [] [wListA]).1 :=
  claim_c7 (fun _ => none) (fun _ => none) "n1" "n2" [] [wListA] (by decide)

/-- C10: With an empty final row set, `export_csv` and `export_xlsx`
return before creating or writing any file, while `export_json` still
creates its output directory and writes a file containing an empty JSON
array (and in fact always writes its file). -/
theorem claim_c10 :
    export_csv [] = none ∧ export_xlsx [] = none ∧ export_json [] = some []
      ∧ (∀ rows : List ExportRow, (export_json rows).isSome = true) :=
  ⟨rfl, rfl, rfl, fun _ => rfl⟩

/-- C6 counterexample: in `pinokio_scraper.py`, when the README scan
finds a URL but the upstream metadata fetch fails, the record is
written with `upstream_url` populated while the remaining upstream
fields are null — a partially populated upstream group, contradicting
the claim that upstream fields are all-or-nothing for every record
written by any operation. -/
theorem claim_c6_counterexample :
    (scraper1UpstreamFields (some "https://github.com/a/b") (fun _ => none)).1
        = some "https://github.com/a/b"
    ∧ (scraper1UpstreamFields (some "https://github.com/a/b") (fun _ => none)).2.1 = none
    ∧ (scraper1UpstreamFields (some "https://github.com/a/b") (fun _ => none)).2.2.1 = none
    ∧ (scraper1UpstreamFields (some "https://github.com/a/b") (fun _ => none)).2.2.2 = none :=
  ⟨rfl, rfl, rfl, rfl⟩

/-- C6 (amended): in `pinokio_scraper_2.py` and `pinokio_fetch.py` the
upstream fields of every written record are all-or-nothing — either all
five are populated from the single successfully resolved upstream
reference, or all are null/empty; `pinokio_scraper.py` however can
leave `upstream_url` populated with the other upstream fields null when
the metadata fetch for the discovered URL fails. -/
theorem claim_c6_amended :
    (∀ (rp : ListingRepo) (up : Option RepoInfo) (nowIso : String),
      ((mergedRow rp up nowIso).upstream_name = none
        ∧ (mergedRow rp up nowIso).upstream_url = none
        ∧ (mergedRow rp up nowIso).upstream_created_at = none
        ∧ (mergedRow rp up nowIso).upstream_updated_at = none
        ∧ (mergedRow rp up nowIso).upstream_open_issues = none)
      ∨ (∃ i, up = some i
          ∧ (mergedRow rp up nowIso).upstream_name = some i.full_name
          ∧ (mergedRow rp up nowIso).upstream_url = some i.html_url
          ∧ (mergedRow rp up nowIso).upstream_created_at = some i.created_at
          ∧ (mergedRow rp up nowIso).upstream_updated_at = some i.updated_at
          ∧ (mergedRow rp up nowIso).upstream_open_issues = some i.open_issues))
    ∧ (∀ (script : UpInfo) (up : Option UpInfo),
      ((fetchResultRow script up).upstream_name = ""
        ∧ (fetchResultRow script up).upstream_url = ""
        ∧ (fetchResultRow script up).upstream_created = ""
        ∧ (fetchResultRow script up).upstream_updated = ""
        ∧ (fetchResultRow script up).upstream_open_issues = none)
      ∨ (∃ i, up = some i
          ∧ (fetchResultRow script up).upstream_name = i.name
          ∧ (fetchResultRow script up).upstream_url = i.url
          ∧ (fetchResultRow script up).upstream_created = i.created_at
          ∧ (fetchResultRow script up).upstream_updated = i.updated_at
          ∧ (fetchResultRow script up).upstream_open_issues = some i.open_issues))
    ∧ (scraper1UpstreamFields (some "https://github.com/a/b") (fun _ => none)
        = (some "https://github.com/a/b", none, none, none)) := by
  refine ⟨?_, ?_, rfl⟩
  · intro rp up nowIso
    cases up with
    | none => exact Or.inl (by simp [mergedRow])
    | some i => exact Or.inr ⟨i, rfl, by simp [mergedRow]⟩
  · intro script up
    cases up with
    | none => exact Or.inl (by simp [fetchResultRow])
    | some i => exact Or.inr ⟨i, rfl, by simp [fetchResultRow]⟩

/-- C9 counterexample: with a cached record `"a"` and a listing that no
longer contains `"a"`, `pinokio_scraper_2.py` keeps the record in the
store but its export row set (and hence its CSV/XLSX/JSON output)
contains only the listed name `"b"` — a name removed from the
organization listing does not appear in the export. -/
theorem claim_c9_counterexample :
    ((runMain false (fun _ => none) "n" [("a", wRowA)] [wListB]).2.map ExportRow.name
      = ["b"])
    ∧ lookupRow (runMain false (fun _ => none) "n" [("a", wRowA)] [wListB]).1 "a"
      = some wRowA := by
  constructor
  · rfl
  · rfl

/-- C9 (amended): records are never deleted — every stored name
survives any run, and store entries for names absent from the listing
are left untouched; `export_json` of `pinokio_scraper.py` does emit the
full table (a stored record always appears in it); but the export set
of `pinokio_scraper_2.py` is built from the current listing only, so
names removed from the organization listing stay in the store yet do
not appear in that script's export. -/
theorem claim_c9_amended :
    (∀ (force : Bool) (resolve : String → Option RepoInfo) (nowIso : String)
      (st : Store) (repos : List ListingRepo) (n : String),
      (lookupRow st n).isSome = true →
      (lookupRow (runMain force resolve nowIso st repos).1 n).isSome = true)
    ∧ (∀ (force : Bool) (resolve : String → Option RepoInfo) (nowIso : String)
      (st : Store) (repos : List ListingRepo) (n : String),
      n ∉ repos.map ListingRepo.name →
      lookupRow (runMain force resolve nowIso st repos).1 n = lookupRow st n)
    ∧ (∀ (st : Store) (n : String) (r : RepoRow),
      lookupRow st n = some r → r ∈ exportJsonAll st) := by
  refine ⟨?_, ?_, mem_exportJsonAll⟩
  · intro force resolve nowIso st repos n h
    exact runMain_keeps force resolve nowIso repos st n h
  · intro force resolve nowIso st repos n h
    exact runMain_store_not_mem force resolve nowIso repos st n h

/-- Witness for C9 (amended) at concrete data: the record `"a"` is
still present after a run whose listing does not mention it, is looked
up unchanged, and appears in the full-table JSON export. -/
theorem claim_c9_witness :
    (lookupRow (runMain false (fun _ => none) "n" [("a", wRowA)] [wListB]).1 "a").isSome
      = true
    ∧ lookupRow (runMain false (fun _ => none) "n" [("a", wRowA)] [wListB]).1 "a"
      = lookupRow [("a", wRowA)] "a"
    ∧ wRowA ∈ exportJsonAll [("a", wRowA)] :=
  ⟨claim_c9_amended.1 false (fun _ => none) "n" [("a", wRowA)] [wListB] "a" (by decide),
   claim_c9_amended.2.1 false (fun _ => none) "n" [("a", wRowA)] [wListB] "a" (by decide),
   claim_c9_amended.2.2 [("a", wRowA)] "a" wRowA (by decide)⟩

/-- C5 counterexample: a response with status 301 (not 2xx, not a
rate-limited 403) is returned to the caller as a normal success — it
does not propagate as a fetch failure, because `raise_for_status()`
raises only for statuses in 400..599.  One API call is counted and no
retry happens. -/
theorem claim_c5_counterexample :
    githubGetRun [({ status := 301, rlRemaining := none, rlReset := none }, 0)]
      = (.ok { status := 301, rlRemaining := none, rlReset := none }, 1, [])
    ∧ ¬ (200 ≤ 301 ∧ 301 < 300) := by
  constructor
  · rfl
  · omega

/-- C5 (amended): the fetcher retries indefinitely on an HTTP 403
response whose rate-limit-remaining header equals `"0"`, sleeping
`max(reset - now, 1)` (at least 1 second) before each retry; the first
non-rate-limited response of a trace terminates the loop — statuses in
400..599 raise to the caller without retry, while any other status
(e.g. a redirect) is returned without error; and the process-wide API
call counter is incremented once per attempt, including the failed
rate-limited ones. -/
theorem claim_c5_amended :
    (∀ (rs : List (HttpResp × Int)) (r : HttpResp) (now : Int),
      (∀ p ∈ rs, isRateLimited p.1 = true) → isRateLimited r = false →
      githubGetRun (rs ++ [(r, now)]) =
        ((if 400 ≤ r.status ∧ r.status < 600 then GetOutcome.httpError r.status
          else GetOutcome.ok r),
         rs.length + 1,
         rs.map (fun p => rlWait p.1 p.2)))
    ∧ (∀ rs : List (HttpResp × Int), (∀ p ∈ rs, isRateLimited p.1 = true) →
        githubGetRun rs = (.pending, rs.length, rs.map (fun p => rlWait p.1 p.2)))
    ∧ (∀ (r : HttpResp) (now : Int), 1 ≤ rlWait r now) := by
  refine ⟨?_, ?_, ?_⟩
  · intro rs
    induction rs with
    | nil =>
      intro r now _ hr
      by_cases h400 : 400 ≤ r.status ∧ r.status < 600
      · simp [githubGetRun, hr, h400]
      · simp [githubGetRun, hr, h400]
    | cons q t ih =>
      intro r now h hr
      have hq : isRateLimited q.1 = true := h q (by simp)
      obtain ⟨qr, qn⟩ := q
      rw [List.cons_append, githubGetRun]
      simp only [hq, if_true]
      rw [ih r now (fun p hp => h p (by simp [hp])) hr]
      simp [Nat.add_comm]
  · intro rs
    induction rs with
    | nil => intro _; rfl
    | cons q t ih =>
      intro h
      have hq : isRateLimited q.1 = true := h q (by simp)
      obtain ⟨qr, qn⟩ := q
      rw [githubGetRun]
      simp only [hq, if_true]
      rw [ih (fun p hp => h p (by simp [hp]))]
      simp [Nat.add_comm]
  · intro r now
    exact le_max_right _ _

/-- Witness for C5 (amended): a simulated rate-limit response
(403, remaining `"0"`, reset 2 seconds after `now = 0`) makes the
fetcher sleep 2 seconds and retry; the following 200 response is
returned, with the counter incremented once per attempt (2 calls). -/
theorem claim_c5_witness :
    githubGetRun
        [({ status := 403, rlRemaining := some "0", rlReset := some 2 }, 0),
         ({ status := 200, rlRemaining := some "99", rlReset := none }, 5)]
      = (.ok { status := 200, rlRemaining := some "99", rlReset := none }, 2, [2]) :=
  (claim_c5_amended.1
      [({ status := 403, rlRemaining := some "0", rlReset := some 2 }, 0)]
      { status := 200, rlRemaining := some "99", rlReset := none } 5
      (by decide) (by decide)).trans (by decide)

def wRecipe : JVal := .obj [("a", .str "https://github.com/foo/bar")]

def wInfoFB : RepoInfo :=
  { full_name := "foo/bar", description := "", created_at := "cf", updated_at := "uf",
    pushed_at := none, open_issues := 1, html_url := "https://github.com/foo/bar" }

def wInfoXY : RepoInfo :=
  { full_name := "x/y", description := "", created_at := "cx", updated_at := "ux",
    pushed_at := none, open_issues := 2, html_url := "https://github.com/x/y" }

def wEnvC2 : FetchEnv :=
  { contentJson := fun f => if f = "pinokio.json" then some wRecipe else none
    readme := some "see https://github.com/x/y"
    repoInfo := fun o r => if o = "foo" ∧ r = "bar" then some wInfoFB else none }

def cexEnvC2 : FetchEnv :=
  { contentJson := fun f => if f = "pinokio.json" then some wRecipe else none
    readme := some "see https://github.com/x/y"
    repoInfo := fun o r => if o = "x" ∧ r = "y" then some wInfoXY else none }

/-- C2 counterexample: the recipe file `pinokio.json` of `cexEnvC2`
contains exactly one GitHub URL (`foo/bar`), yet when the metadata
fetch for `foo/bar` fails, `find_upstream` swallows the failure and
falls through to the README, resolving and returning `x/y` instead of
that URL's owner/repo pair. -/
theorem claim_c2_counterexample :
    jsonUrls wRecipe = ["https://github.com/foo/bar"]
    ∧ splitOwnerRepo "https://github.com/foo/bar" = some ("foo", "bar")
    ∧ find_upstream cexEnvC2 = some wInfoXY
    ∧ wInfoXY.full_name = "x/y" := by
  refine ⟨by decide, by decide, by decide, rfl⟩

/-- C2 (amended): upstream resolution probes the candidate sources in
the fixed order `pinokio.json`, `install.json`, README; for every
repository whose recipe file contains exactly one GitHub URL *and whose
extracted owner/repo pair resolves successfully*, resolution returns
that pair's metadata and never falls through to the README (the result
is independent of the README content); if the pair fails to resolve,
the resolver falls through to the later sources.  Stated both for a hit
in `pinokio.json` and for a hit in `install.json` when `pinokio.json`
is absent. -/
theorem claim_c2_amended :
    (∀ (env : FetchEnv) (j : JVal) (u : String) (o r : String) (info : RepoInfo)
        (rm : Option String),
      env.contentJson "pinokio.json" = some j → j.truthy = true → jsonUrls j = [u] →
      splitOwnerRepo u = some (o, r) → env.repoInfo o r = some info →
      find_upstream { env with readme := rm } = some info)
    ∧ (∀ (env : FetchEnv) (j : JVal) (u : String) (o r : String) (info : RepoInfo)
        (rm : Option String),
      env.contentJson "pinokio.json" = none → env.contentJson "install.json" = some j →
      j.truthy = true → jsonUrls j = [u] →
      splitOwnerRepo u = some (o, r) → env.repoInfo o r = some info →
      find_upstream { env with readme := rm } = some info) := by
  constructor
  · intro env j u o r info rm h1 h2 h3 h4 h5
    have hx : extractJ j = some u := by rw [extractJ_eq_head, h3]; rfl
    simp [find_upstream, recipeStep, h1, h2, hx, h4, h5]
  · intro env j u o r info rm h0 h1 h2 h3 h4 h5
    have hx : extractJ j = some u := by rw [extractJ_eq_head, h3]; rfl
    simp [find_upstream, recipeStep, h0, h1, h2, hx, h4, h5]

/-- Witness for C2 (amended): a recipe with exactly one URL whose pair
resolves; the resolver returns it without consulting the README. -/
theorem claim_c2_witness :
    find_upstream wEnvC2 = some wInfoFB :=
  claim_c2_amended.1 wEnvC2 wRecipe "https://github.com/foo/bar" "foo" "bar" wInfoFB
    (some "see https://github.com/x/y")
    rfl (by decide) (by decide) (by decide) (by decide)

def exJsonC3 : JVal :=
  .obj [("a", .obj [("b", .arr [.str "x", .str "https://github.com/foo/bar"])])]

def cexJsonC3 : JVal :=
  .obj [("a", .str "github.com has docs"), ("b", .str "https://github.com/foo/bar")]

/-- C3 counterexample: `find_url` of `pinokio_fetch.py` returns the
first string scalar containing `"github.com"` as a substring without
checking the URL pattern: on a JSON whose first string mentions
`github.com` in prose and whose second string is a matching GitHub URL,
the walk returns the prose string — which contains no URL matching
`https://github.com/<owner>/<repo>` — rather than the first string
containing a matching URL. -/
theorem claim_c3_counterexample :
    findUrlJ cexJsonC3 = some "github.com has docs"
    ∧ searchGithub urlCls "github.com has docs".data = none := by
  refine ⟨by decide, by decide⟩

/-- C3 (amended): both walks visit values depth-first, dictionary
values before list items, and for the input
`{"a": {"b": ["x", "https://github.com/foo/bar"]}}` both return
`https://github.com/foo/bar`; `_extract_github_url_from_json` of
`pinokio_scraper_2.py` always returns the matched substring of the
first scalar string containing a pattern-matching GitHub URL (its
result always has the shape `https://github.com/<owner>/<repo>`), while
`find_url` of `pinokio_fetch.py` returns the first scalar string merely
containing `"github.com"` as a substring, with no pattern check. -/
theorem claim_c3_amended :
    (∀ (j : JVal) (u : String), extractJ j = some u → isGithubUrlText u)
    ∧ extractJ exJsonC3 = some "https://github.com/foo/bar"
    ∧ findUrlJ exJsonC3 = some "https://github.com/foo/bar"
    ∧ findUrlJ cexJsonC3 = some "github.com has docs" := by
  refine ⟨?_, by decide, by decide, by decide⟩
  intro j u h
  rw [extractJ_eq_head] at h
  have hu : u ∈ jsonUrls j := by
    cases hl : jsonUrls j with
    | nil => rw [hl] at h; cases h
    | cons a t =>
      rw [hl] at h
      have : a = u := by simpa using h
      rw [← this]
      exact List.mem_cons_self a t
  exact jsonUrls_shape j u hu

/-- Witness for C3 (amended): the result extracted from the example
recipe has the URL shape. -/
theorem claim_c3_witness :
    isGithubUrlText "https://github.com/foo/bar" :=
  claim_c3_amended.1 exJsonC3 "https://github.com/foo/bar" (by decide)

theorem splitOwnerRepo_matchText (o r : List Char) (hr : r ≠ [])
    (hallo : o.all urlCls = true) (hallr : r.all urlCls = true) :
    splitOwnerRepo (String.mk (matchText (o, r))) = some (String.mk o, String.mk r) := by
  have hnoslash : ∀ (l : List Char), l.all urlCls = true → ∀ c ∈ l, ¬ c = '/' := by
    intro l hall c hc he
    have := List.all_eq_true.mp hall c hc
    rw [he] at this
    exact absurd this (by decide)
  -- the trailing strip is a no-op: the text ends with the last char of r
  have hstrip : rstripSlash (matchText (o, r)) = matchText (o, r) := by
    cases hrev : r.reverse with
    | nil =>
      exact absurd (by rw [← List.reverse_reverse r, hrev]; rfl) hr
    | cons c t =>
      have hcmem : c ∈ r := by
        rw [← List.mem_reverse, hrev]
        exact List.mem_cons_self c t
      apply rstripSlash_eq_self _ c (t ++ ('/' :: o.reverse ++ litGithub.reverse))
      · simp [matchText, hrev, List.append_assoc]
      · exact hnoslash r hallr c hcmem
  have hform : matchText (o, r)
      = "https:".data ++ '/' :: ([] ++ '/' :: ("github.com".data ++ '/' :: (o ++ '/' :: r))) := by
    rfl
  have hsplit : splitOnChar '/' (matchText (o, r))
      = ["https:".data, [], "github.com".data, o, r] := by
    rw [hform, splitOnChar_append '/' "https:".data _ (by decide),
      splitOnChar_append '/' [] _ (by simp),
      splitOnChar_append '/' "github.com".data _ (by decide),
      splitOnChar_append '/' o _ (hnoslash o hallo),
      splitOnChar_no_sep '/' r (hnoslash r hallr)]
  unfold splitOwnerRepo
  rw [show (String.mk (matchText (o, r))).data = matchText (o, r) from rfl, hstrip, hsplit]
  rfl

/-- C4 counterexample: for a README containing
`https://github.com/baz/qux.git` embedded in prose,
`pinokio_scraper_2.py` extracts the pair `("baz", "qux.git")` — its
regex class includes `.` so the match keeps the `.git` suffix, and
`owner, rname = u.rstrip("/").split("/")[-2:]` strips only a trailing
slash, never a `.git` suffix — contradicting the claimed pair
`("baz", "qux")`. -/
theorem claim_c4_counterexample :
    readmePairScraper2 "see https://github.com/baz/qux.git for source"
      = some ("baz", "qux.git")
    ∧ some ("baz", "qux.git") ≠ some (("baz" : String), ("qux" : String)) := by
  refine ⟨by decide, by decide⟩

/-- C4 (amended): when a GitHub URL is found, `pinokio_scraper_2.py`
splits off the trailing owner/repo path segments with a trailing slash
stripped but performs no `.git` stripping (on the example README it
yields `baz/qux.git`); `pinokio_fetch.py`'s README branch yields
`baz/qux` because its regex class has no dot — the match stops before
`.git` — and a `.git` occurrence would additionally be removed by
`replace(".git", "")`. -/
theorem claim_c4_amended :
    (∀ o r : List Char, r ≠ [] → o.all urlCls = true → r.all urlCls = true →
      splitOwnerRepo (String.mk (matchText (o, r))) = some (String.mk o, String.mk r))
    ∧ readmePairScraper2 "see https://github.com/baz/qux.git for source"
        = some ("baz", "qux.git")
    ∧ readmePairFetch "see https://github.com/baz/qux.git for source"
        = some ("baz", "qux") := by
  refine ⟨?_, by decide, by decide⟩
  intro o r hr hallo hallr
  exact splitOwnerRepo_matchText o r hr hallo hallr

/-- Witness for C4 (amended) at the concrete match `baz`/`qux`: the
split recovers exactly the owner/repo runs of the match. -/
theorem claim_c4_witness :
    splitOwnerRepo (String.mk (matchText ("baz".data, "qux".data)))
      = some ("baz", "qux") :=
  claim_c4_amended.1 "baz".data "qux".data (by decide) (by decide) (by decide)

/-- C8: the exported row set is a permutation of `rows_out` sorted by
the pair (upstream name, own name) ascending: for every ordered pair of
rows in the result, the earlier row's upstream name is less than or
equal to the later one's (code-point order), rows with equal upstream
name are ordered by own name ascending, and consequently a row with
nonempty upstream name never precedes one with empty upstream name (the
empty string, used as the sort key for unresolved upstreams via
`dbrow[7] or ""`, sorts first). -/
theorem claim_c8 (rows : List ExportRow) :
    List.Perm (sortRows rows) rows
    ∧ List.Pairwise (fun a b =>
        (strLtB a.upstream_name.data b.upstream_name.data = true
          ∨ a.upstream_name = b.upstream_name)
        ∧ (a.upstream_name = b.upstream_name →
            (strLtB a.name.data b.name.data = true ∨ a.name = b.name))
        ∧ (b.upstream_name = "" → a.upstream_name = "")) (sortRows rows)
    ∧ (∀ rr : RepoRow, rr.upstream_name = none → (exportRowOf rr).upstream_name = "") := by
  refine ⟨List.perm_insertionSort expRel rows, ?_, ?_⟩
  · have hs : List.Sorted expRel (sortRows rows) := List.sorted_insertionSort expRel rows
    refine List.Pairwise.imp ?_ hs
    intro a b hab
    have hab2 := (expLE_iff a b).mp hab
    refine ⟨?_, ?_, ?_⟩
    · rcases hab2 with h | ⟨he, _⟩
      · exact Or.inl h
      · exact Or.inr (string_eq_of_data_eq _ _ he)
    · intro heq
      rcases hab2 with h | ⟨_, hn⟩
      · rw [heq, strLtB_irrefl] at h
        cases h
      · rcases hn with hn | hn
        · exact Or.inl hn
        · exact Or.inr (string_eq_of_data_eq _ _ hn)
    · intro hbe
      have hbdata : b.upstream_name.data = [] := by rw [hbe]
      rcases hab2 with h | ⟨he, _⟩
      · rw [hbdata, strLtB_nil_right] at h
        cases h
      · apply string_eq_of_data_eq
        rw [he, hbdata]
  · intro rr h
    simp [exportRowOf, h]

/-- Witness for C8 at concrete data: a two-row set sorts to a
permutation of itself, and an unresolved upstream renders as the empty
sort key. -/
theorem claim_c8_witness :
    List.Perm (sortRows [exportRowOf wRowA]) [exportRowOf wRowA]
    ∧ (exportRowOf wRowA).upstream_name = "" :=
  ⟨(claim_c8 [exportRowOf wRowA]).1,
   (claim_c8 [exportRowOf wRowA]).2.2 wRowA (by decide)⟩
